import Mathlib

/-!
Verification development for the `extractor` crate: a tool that assigns
genomic methylation measurements (CG sites) to positional bins relative to
annotated genes.

The Rust sources embedded here are `src/methylation_site.rs`,
`src/windows.rs` and the data shapes they use.  Machine integers (`u8`,
`i32`, `usize`) are modelled as `Nat`/`Int`; the `f32` arithmetic of
`place_in_windows` is modelled by an exact fraction type `F` (numerator /
denominator over `Int`), i.e. real-number arithmetic without rounding.
Rust `Result` is modelled as `Except`.
-/

namespace Extractor

/-- Modelled from the spec (§3, source file `structs.rs` is not part of the
provided sources): the two strand orientations of a gene or site. -/
inductive Strand
  | Sense
  | Antisense
deriving DecidableEq, Repr

/-- Modelled from the spec (§3, source file `structs.rs` is not part of the
provided sources): tags a site's position relative to a gene's interval. -/
inductive Region
  | Upstream
  | Gene
  | Downstream
deriving DecidableEq, Repr

/-- Modelled from the spec (§3, source file `structs.rs` is not part of the
provided sources): a gene interval with chromosome, start/end coordinates,
strand and name.  `chromosome` is a small unsigned integer (`u8`),
`start`/`end` are signed (`i32`). -/
structure Gene where
  chromosome : Nat
  start : Int
  «end» : Int
  strand : Strand
  name : String
deriving DecidableEq, Repr

instance : Inhabited Gene := ⟨⟨0, 0, 0, Strand.Sense, ""⟩⟩

/-- Modelled from the spec (§3, source file `structs.rs` is not part of the
provided sources): the per-chromosome pair of per-strand gene sequences. -/
structure GenesByStrand where
  sense : List Gene
  antisense : List Gene
deriving DecidableEq, Repr

instance : Inhabited GenesByStrand := ⟨⟨[], []⟩⟩

/-- `MethylationSite` from `src/methylation_site.rs`. -/
structure MethylationSite where
  chromosome : Nat
  location : Int
  strand : Strand
  original : String
deriving DecidableEq, Repr

/-- Modelled from the spec (§7, source file `error.rs` is not part of the
provided sources): the error taxonomy.  `CGSite` is the typed error for a
wrong field count or a non-"CG" context tag; `Parse` stands for a malformed
numeric field. -/
inductive Error
  | CGSite
  | Parse
deriving DecidableEq, Repr

/-- `Args` from `src/arguments.rs` (the fields the core consumes). -/
structure Args where
  methylome : String
  genome : String
  window_size : Int
  window_step : Int
  output_dir : String
  absolute : Bool
  cutoff : Int
  invert : Bool
deriving DecidableEq, Repr

/-!
### Exact fraction arithmetic

`place_in_windows` works on `f32` values obtained from `i32` coordinates.
We model that arithmetic exactly over `ℤ`-fractions: a value is
`num / den`.  All denominators produced by the operations below are
non-negative, and positive whenever no division by zero occurred.
-/

/-- An exact fraction (model of the `f32` values in `place_in_windows`). -/
structure F where
  num : Int
  den : Int
deriving DecidableEq, Repr

/-- Build a fraction with a non-negative denominator. -/
def F.mk' (n d : Int) : F := if d < 0 then ⟨-n, -d⟩ else ⟨n, d⟩

def F.ofInt (n : Int) : F := ⟨n, 1⟩

def F.add (a b : F) : F := F.mk' (a.num * b.den + b.num * a.den) (a.den * b.den)

def F.sub (a b : F) : F := F.mk' (a.num * b.den - b.num * a.den) (a.den * b.den)

def F.mul (a b : F) : F := F.mk' (a.num * b.num) (a.den * b.den)

def F.div (a b : F) : F := F.mk' (a.num * b.den) (a.den * b.num)

/-- `a ≤ b` on fractions (valid for the non-negative denominators the
operations above produce). -/
def F.le (a b : F) : Prop := a.num * b.den ≤ b.num * a.den

def F.lt (a b : F) : Prop := a.num * b.den < b.num * a.den

instance : LE F := ⟨F.le⟩

instance : LT F := ⟨F.lt⟩

instance (a b : F) : Decidable (a ≤ b) :=
  inferInstanceAs (Decidable (a.num * b.den ≤ b.num * a.den))

instance (a b : F) : Decidable (a < b) :=
  inferInstanceAs (Decidable (a.num * b.den < b.num * a.den))

/-- The tolerance constant `E` of `place_in_windows` (`0.1` in the source). -/
def E : F := ⟨1, 10⟩

/-!
### The window aggregator (`src/windows.rs`)
-/

/-- `pub type Window = Vec<MethylationSite>;` -/
abbrev Window := List MethylationSite

/-- `struct Windows` from `src/windows.rs`. -/
structure Windows where
  upstream : List Window
  gene : List Window
  downstream : List Window
deriving DecidableEq, Repr

namespace Windows

/-- `Windows::new` (`src/windows.rs` lines 20-36).  Rust's `i32` division
truncates towards zero (`Int.tdiv`); the `as usize` conversion of the
non-negative counts is `Int.toNat`. -/
def new (max_gene_length : Int) (args : Args) : Windows :=
  let gene_window_count : Int :=
    if args.absolute then Int.tdiv max_gene_length args.window_step else 100
  let up_down_window_count : Int :=
    if args.absolute then Int.tdiv args.cutoff args.window_step else 100
  { upstream := List.replicate up_down_window_count.toNat []
    gene := List.replicate gene_window_count.toNat []
    downstream := List.replicate up_down_window_count.toNat [] }

/-- `Windows::get` (`src/windows.rs` lines 37-43). -/
def get (w : Windows) (region : Region) : List Window :=
  match region with
  | Region.Upstream => w.upstream
  | Region.Gene => w.gene
  | Region.Downstream => w.downstream

/-- Write-back through `Windows::get_mut` (`src/windows.rs` lines 44-50):
replacing the borrowed region array with a new value. -/
def set (w : Windows) (region : Region) (l : List Window) : Windows :=
  match region with
  | Region.Upstream => { w with upstream := l }
  | Region.Gene => { w with gene := l }
  | Region.Downstream => { w with downstream := l }

/-- `Windows::inverse` (`src/windows.rs` lines 51-56), with the source's
sequencing kept: `upstream` is overwritten first, and the later assignment
to `downstream` therefore reads the already-updated `upstream`. -/
def inverse (w : Windows) : Windows :=
  let w1 := { w with upstream := w.downstream.reverse }
  let w2 := { w1 with gene := w1.gene.reverse }
  { w2 with downstream := w2.upstream.reverse }

/-- One `format!("{},{}\n", i, window.len())` row of `Windows::distribution`. -/
def csvRow (i : Nat) (window : Window) : String :=
  toString i ++ "," ++ toString window.length ++ "\n"

/-- `Windows::distribution` (`src/windows.rs` lines 58-85).  Rust's
`iter().enumerate()` with `push_str` accumulation is a fold over
`List.enum`; the `Combined` section chains the three arrays under a single
`enumerate`. -/
def distribution (w : Windows) : String :=
  let output := ""
  let output := output ++ "Upstream\n"
  let output := w.upstream.enum.foldl (fun acc p => acc ++ csvRow p.1 p.2) output
  let output := output ++ "Gene\n"
  let output := w.gene.enum.foldl (fun acc p => acc ++ csvRow p.1 p.2) output
  let output := output ++ "Downstream\n"
  let output := w.downstream.enum.foldl (fun acc p => acc ++ csvRow p.1 p.2) output
  let output := output ++ "Combined\n"
  let output := (w.upstream ++ w.gene ++ w.downstream).enum.foldl
    (fun acc p => acc ++ csvRow p.1 p.2) output
  output

end Windows

/-!
### The site parser (`MethylationSite::from_methylome_file_line`)
-/

/-- Rust's `str::split('\t')` over the character list of a string: splits at
every tab, keeping empty fields (n separators yield n+1 fields). -/
def splitTab : List Char → List (List Char)
  | [] => [[]]
  | c :: rest =>
    let r := splitTab rest
    if c = '\t' then [] :: r
    else
      match r with
      | [] => [[c]]
      | f :: fs => (c :: f) :: fs

/-- Accumulate decimal digits as in Rust's `from_str_radix` loop; any
non-digit character is an `InvalidDigit` error (`none`). -/
def digitsToNat (acc : Nat) : List Char → Option Nat
  | [] => some acc
  | c :: rest =>
    if c.isDigit then digitsToNat (acc * 10 + (c.toNat - 48)) rest else none

/-- Rust `str::parse::<u8>`: an optional leading `+`, then at least one
decimal digit, value at most `255`.  A leading `-` is rejected for unsigned
types. -/
def rustParseU8 (s : List Char) : Option Nat :=
  match s with
  | [] => none
  | c :: rest =>
    let digits := if c = '+' then rest else s
    match digits with
    | [] => none
    | _ =>
      match digitsToNat 0 digits with
      | some n => if n ≤ 255 then some n else none
      | none => none

/-- Rust `str::parse::<i32>`: an optional sign, then at least one decimal
digit, value within `[-2^31, 2^31 - 1]`. -/
def rustParseI32 (s : List Char) : Option Int :=
  match s with
  | [] => none
  | c :: rest =>
    if c = '-' then
      match rest with
      | [] => none
      | _ =>
        match digitsToNat 0 rest with
        | some n => if n ≤ 2 ^ 31 then some (-(n : Int)) else none
        | none => none
    else
      let digits := if c = '+' then rest else s
      match digits with
      | [] => none
      | _ =>
        match digitsToNat 0 digits with
        | some n => if n ≤ 2 ^ 31 - 1 then some (n : Int) else none
        | none => none

/-- `MethylationSite::from_methylome_file_line` (`src/methylation_site.rs`
lines 21-38): split on tab into exactly 9 fields (`collect_tuple`), require
the 4th field to be `"CG"`, parse chromosome as `u8` and location as `i32`,
derive the strand from `(field[2] == "+") ^ invert_strand`, and keep the
whole line in `original`. -/
def MethylationSite.from_methylome_file_line (s : String) (invert_strand : Bool) :
    Except Error MethylationSite :=
  match splitTab s.data with
  | [chromosome, location, strand, context, _f4, _f5, _f6, _f7, _f8] =>
    if context = "CG".data then
      match rustParseU8 chromosome with
      | none => Except.error Error.Parse
      | some c =>
        match rustParseI32 location with
        | none => Except.error Error.Parse
        | some loc =>
          Except.ok
            { chromosome := c
              location := loc
              strand :=
                if Bool.xor (decide (strand = "+".data)) invert_strand then
                  Strand.Sense
                else Strand.Antisense
              original := s }
    else Except.error Error.CGSite
  | _ => Except.error Error.CGSite

/-!
### Gene lookup (`MethylationSite::is_in_gene`, `MethylationSite::find_gene`)
-/

/-- `MethylationSite::is_in_gene` (`src/methylation_site.rs` lines 43-48). -/
def MethylationSite.is_in_gene (site : MethylationSite) (gene : Gene) (cutoff : Int) : Bool :=
  decide (site.chromosome = gene.chromosome) &&
    decide (gene.start ≤ site.location + cutoff) &&
    decide (site.location ≤ gene.«end» + cutoff) &&
    decide (site.strand = gene.strand)

/-- Rust `slice::binary_search_by_key(&location, |gene| gene.end + cutoff)`
followed by `.unwrap_or_else(|x| x)`: the core two-pointer loop, with the
`Ok`/`Err` results already collapsed to the index (as the caller does). -/
def rustBinSearchGo (genes : List Gene) (cutoff target : Int) (left right : Nat) : Nat :=
  if h : left < right then
    let mid := left + (right - left) / 2
    let k := (genes.getD mid default).«end» + cutoff
    if k < target then rustBinSearchGo genes cutoff target (mid + 1) right
    else if target < k then rustBinSearchGo genes cutoff target left mid
    else mid
  else left
termination_by right - left
decreasing_by
  · omega
  · have : (right - left) / 2 < right - left := Nat.div_lt_self (by omega) (by omega)
    omega

/-- The strand-bucket selection of `find_gene` (`src/methylation_site.rs`
lines 61-64). -/
def strandGenes (chromosome : GenesByStrand) (s : Strand) : List Gene :=
  match s with
  | Strand.Sense => chromosome.sense
  | Strand.Antisense => chromosome.antisense

/-- `MethylationSite::find_gene` (`src/methylation_site.rs` lines 55-78).
Rust indexes `genome[(chromosome - 1) as usize]` and panics when the
chromosome is outside the built index's range; here an out-of-range
chromosome yields `none`, and the claims about `find_gene` are stated for
in-range chromosomes only. -/
def MethylationSite.find_gene (site : MethylationSite) (genome : List GenesByStrand)
    (cutoff : Int) : Option Gene :=
  match genome.get? (site.chromosome - 1) with
  | none => none
  | some chromosome =>
    let strand := strandGenes chromosome site.strand
    let first_matching_gene_index :=
      rustBinSearchGo strand cutoff site.location 0 strand.length
    if strand.length < first_matching_gene_index + 1 then none
    else
      let gene := strand.getD first_matching_gene_index default
      if site.is_in_gene gene cutoff then some gene else none

/-!
### The placement engine (`MethylationSite::place_in_windows`)
-/

/-- The `offset` of `place_in_windows` (`src/methylation_site.rs`
lines 100-103): offset from the start for `+` strand, offset from the end
for `-` strand. -/
def placeOffset (site : MethylationSite) (gene : Gene) : F :=
  match site.strand with
  | Strand.Sense => F.sub (F.ofInt site.location) (F.ofInt gene.start)
  | Strand.Antisense => F.sub (F.ofInt gene.«end») (F.ofInt site.location)

/-- The region classification of `place_in_windows` (`src/methylation_site.rs`
lines 105-109): `offset < 0` is upstream, `offset > length` is downstream
(a site exactly on the end of the gene is still in the gene), else gene. -/
def placeRegion (site : MethylationSite) (gene : Gene) : Region :=
  let length := F.sub (F.ofInt gene.«end») (F.ofInt gene.start)
  let offset := placeOffset site gene
  if offset < F.ofInt 0 then Region.Upstream
  else if length < offset then Region.Downstream
  else Region.Gene

/-- The `position` of `place_in_windows` (`src/methylation_site.rs`
lines 113-130): the position within the region (strand- and
region-specific), divided by cutoff or gene length and scaled to percent
unless absolute sizing is requested. -/
def placePosition (site : MethylationSite) (gene : Gene) (args : Args) : F :=
  let location := F.ofInt site.location
  let cutoff := F.ofInt args.cutoff
  let start := F.ofInt gene.start
  let stop := F.ofInt gene.«end»
  let length := F.sub stop start
  let region := placeRegion site gene
  let position :=
    match region, site.strand with
    | Region.Upstream, Strand.Sense => F.add (F.sub location start) cutoff
    | Region.Gene, Strand.Sense => F.sub location start
    | Region.Downstream, Strand.Sense => F.sub location stop
    | Region.Upstream, Strand.Antisense => F.add (F.sub stop location) cutoff
    | Region.Gene, Strand.Antisense => F.sub stop location
    | Region.Downstream, Strand.Antisense => F.sub start location
  if !args.absolute then
    let position :=
      match region with
      | Region.Upstream => F.div position cutoff
      | Region.Gene => F.div position length
      | Region.Downstream => F.div position cutoff
    F.mul position (F.ofInt 100)
  else position

/-- The bin loop of `place_in_windows` (`src/methylation_site.rs`
lines 132-140): for each bin index `i`, with `lower_bound = i*step - E` and
`upper_bound = lower_bound + size + E`, push a clone of the site into every
bin whose bounds enclose `position` and record `(region, i)`. -/
def placeLoop (site : MethylationSite) (region : Region) (step size position : F) :
    Nat → List Window → List Window × List (Region × Nat)
  | _, [] => ([], [])
  | i, w :: rest =>
    let lower_bound := F.sub (F.mul (F.ofInt i) step) E
    let upper_bound := F.add (F.add lower_bound size) E
    let tail := placeLoop site region step size position (i + 1) rest
    if lower_bound ≤ position ∧ position ≤ upper_bound then
      ((w ++ [site]) :: tail.1, (region, i) :: tail.2)
    else (w :: tail.1, tail.2)

/-- `MethylationSite::place_in_windows` (`src/methylation_site.rs`
lines 83-142): classify the region, compute the (possibly
percentage-normalized) position, and insert the site into every matching
bin of that region's array, returning the updated aggregator and the list
of `(Region, index)` insertions. -/
def MethylationSite.place_in_windows (site : MethylationSite) (gene : Gene)
    (windows : Windows) (args : Args) : Windows × List (Region × Nat) :=
  let step := F.ofInt args.window_step
  let size := F.ofInt args.window_size
  let region := placeRegion site gene
  let position := placePosition site gene args
  let local_windows := windows.get region
  let result := placeLoop site region step size position 0 local_windows
  (windows.set region result.1, result.2)

/-!
### The extraction pipeline (`extract_windows`, `src/windows.rs` lines 126-157)
-/

/-- The per-line loop of `extract_windows`: parse the line (silently
skipping lines that are not valid CG records), re-run the gene lookup
whenever there is no sticky gene or the site left the sticky gene's
cutoff-extended interval, and place the site if a gene is available. -/
def extractGo (genome : List GenesByStrand) (args : Args) :
    List String → Option Gene → Windows → Windows
  | [], _, w => w
  | line :: rest, last_gene, w =>
    match MethylationSite.from_methylome_file_line line args.invert with
    | Except.error _ => extractGo genome args rest last_gene w
    | Except.ok cg =>
      let lg :=
        match last_gene with
        | none => cg.find_gene genome args.cutoff
        | some g =>
          if cg.is_in_gene g args.cutoff then some g
          else cg.find_gene genome args.cutoff
      match lg with
      | some gene => extractGo genome args rest lg (cg.place_in_windows gene w args).1
      | none => extractGo genome args rest lg w

/-- `extract_windows` (`src/windows.rs` lines 126-157): skip the header
line, then stream the remaining lines through `extractGo` with an initially
empty sticky gene, starting from a freshly constructed aggregator.  The
file handle is modelled as the list of its lines. -/
def extract_windows (lines : List String) (genome : List GenesByStrand)
    (max_gene_length : Int) (args : Args) : Windows :=
  extractGo genome args (lines.drop 1) none (Windows.new max_gene_length args)

/-- Modelled from the spec (§4.5 / testable properties): the reference
pipeline that performs a fresh Gene Index lookup for every parsed site
(no sticky last-gene cache), otherwise identical to `extract_windows`. -/
def extractRefGo (genome : List GenesByStrand) (args : Args) :
    List String → Windows → Windows
  | [], w => w
  | line :: rest, w =>
    match MethylationSite.from_methylome_file_line line args.invert with
    | Except.error _ => extractRefGo genome args rest w
    | Except.ok cg =>
      match cg.find_gene genome args.cutoff with
      | some gene => extractRefGo genome args rest (cg.place_in_windows gene w args).1
      | none => extractRefGo genome args rest w

/-- Modelled from the spec: the fresh-lookup reference pipeline, with the
same header skipping and aggregator construction as `extract_windows`. -/
def extract_windows_ref (lines : List String) (genome : List GenesByStrand)
    (max_gene_length : Int) (args : Args) : Windows :=
  extractRefGo genome args (lines.drop 1) (Windows.new max_gene_length args)

end Extractor

namespace Extractor

/-!
### Example values used by witnesses and counterexamples
-/

/-- A sample gene on chromosome 1, interval `[100, 200]`, sense strand. -/
def exGene : Gene := ⟨1, 100, 200, Strand.Sense, ""⟩

/-- A sample site exactly at `exGene`'s start. -/
def exSiteB : MethylationSite := ⟨1, 100, Strand.Sense, ""⟩

/-- A sample site inside `exGene`. -/
def exSite : MethylationSite := ⟨1, 105, Strand.Sense, ""⟩

/-- Absolute sizing, window size 2, step 1, cutoff 2048. -/
def exArgsAbs : Args := ⟨"", "", 2, 1, "", true, 2048, false⟩

/-- Absolute sizing, window size 512, step 256, cutoff 2048. -/
def exArgsNew : Args := ⟨"", "", 512, 256, "", true, 2048, false⟩

/-- A populated aggregator whose upstream and downstream arrays differ. -/
def wBug : Windows := ⟨[[exSiteB]], [[exSiteB], []], [[]]⟩

/-!
### F-arithmetic basics
-/

theorem F.le_iff (a b : F) : a ≤ b ↔ a.num * b.den ≤ b.num * a.den := Iff.rfl

theorem F.lt_iff (a b : F) : a < b ↔ a.num * b.den < b.num * a.den := Iff.rfl

theorem F.sub_ofInt (a b : Int) : F.sub (F.ofInt a) (F.ofInt b) = ⟨a - b, 1⟩ := by
  simp [F.sub, F.ofInt, F.mk']

/-!
### Claims C1 and C2: `Windows::inverse`

`inverse` overwrites `self.upstream` before the assignment to
`self.downstream` reads `self.upstream`, so the result is
`(downstream.reverse, gene.reverse, downstream)`: the old upstream array is
discarded and the downstream array ends up unchanged.
-/

/-- The actual effect of `Windows::inverse`, for every aggregator. -/
theorem inverse_eq (w : Windows) :
    Windows.inverse w = ⟨w.downstream.reverse, w.gene.reverse, w.downstream⟩ := by
  simp [Windows.inverse]

/-- Claim C1 (code bug): at the populated aggregator `wBug`, `inverse` leaves
the downstream bin array equal to the old downstream array instead of the
reverse of the old upstream array (the upstream data is lost), because the
source reads the already-overwritten `upstream` field. -/
theorem inverse_not_swapping_at_wBug :
    (Windows.inverse wBug).upstream = wBug.downstream.reverse ∧
    (Windows.inverse wBug).gene = wBug.gene.reverse ∧
    (Windows.inverse wBug).downstream = wBug.downstream ∧
    (Windows.inverse wBug).downstream ≠ wBug.upstream.reverse := by decide

/-- Claim C2 (code bug): applying `inverse` twice at the populated
aggregator `wBug` does not reproduce the original: the upstream array is
replaced by the reverse of the downstream array. -/
theorem inverse_inverse_not_id_at_wBug :
    Windows.inverse (Windows.inverse wBug) ≠ wBug := by decide

/-!
### Claim C6: region classification in `place_in_windows`
-/

/-- Claim C6: with `offset = location - start` for a sense-strand site and
`end - location` for an antisense-strand site, and `length = end - start`
(`start ≤ end` as the data model guarantees), `place_in_windows` classifies
the site as Upstream exactly when `offset < 0`, Downstream exactly when
`offset > length`, and Gene otherwise; in particular a site with offset
exactly `0` or exactly `length` is classified Gene, not Downstream. -/
theorem place_region_spec (site : MethylationSite) (gene : Gene)
    (hg : gene.start ≤ gene.«end») :
    (placeRegion site gene = Region.Upstream ↔ placeOffset site gene < F.ofInt 0)
    ∧ (placeRegion site gene = Region.Downstream ↔
        F.sub (F.ofInt gene.«end») (F.ofInt gene.start) < placeOffset site gene)
    ∧ (placeRegion site gene = Region.Gene ↔
        (F.ofInt 0 ≤ placeOffset site gene ∧
          placeOffset site gene ≤ F.sub (F.ofInt gene.«end») (F.ofInt gene.start)))
    ∧ ((placeOffset site gene = F.ofInt 0 ∨
        placeOffset site gene = F.sub (F.ofInt gene.«end») (F.ofInt gene.start)) →
        placeRegion site gene = Region.Gene) := by
  have hoff : ∃ o : Int, placeOffset site gene = ⟨o, 1⟩ := by
    cases hs : site.strand
    · exact ⟨site.location - gene.start, by simp [placeOffset, hs, F.sub_ofInt]⟩
    · exact ⟨gene.«end» - site.location, by simp [placeOffset, hs, F.sub_ofInt]⟩
  obtain ⟨o, ho⟩ := hoff
  rw [ho, placeRegion, F.sub_ofInt]
  simp only [ho, F.sub_ofInt, F.lt_iff, F.le_iff, F.ofInt]
  split_ifs with h1 h2 <;>
    simp_all <;> constructor <;> omega

/-- Witness for C6: a site exactly at the start of `exGene` is classified
into the Gene region. -/
theorem place_region_spec_witness :
    exGene.start ≤ exGene.«end» ∧ placeRegion exSiteB exGene = Region.Gene :=
  ⟨by decide, (place_region_spec exSiteB exGene (by decide)).2.2.2 (Or.inl (by decide))⟩

/-!
### Claim C8: `Windows::new`
-/

/-- Claim C8: `Windows::new` builds, under absolute sizing,
`max_gene_length / step` gene bins and `cutoff / step` upstream and
downstream bins (Rust `i32` truncating division), and under relative sizing
exactly 100 bins in each of the three arrays; every bin starts empty.  The
hypotheses restrict to the domain where the Rust code is defined
(`window_step = 0` would panic with a division by zero, and negative counts
would panic in the `as usize` vector allocation). -/
theorem windows_new_spec (max_gene_length : Int) (args : Args)
    (_hstep : 0 < args.window_step) (_hmgl : 0 ≤ max_gene_length)
    (_hcut : 0 ≤ args.cutoff) :
    ((Windows.new max_gene_length args).gene.length
      = if args.absolute then (Int.tdiv max_gene_length args.window_step).toNat else 100)
    ∧ ((Windows.new max_gene_length args).upstream.length
      = if args.absolute then (Int.tdiv args.cutoff args.window_step).toNat else 100)
    ∧ ((Windows.new max_gene_length args).downstream.length
      = if args.absolute then (Int.tdiv args.cutoff args.window_step).toNat else 100)
    ∧ ∀ r bin, bin ∈ (Windows.new max_gene_length args).get r → bin = [] := by
  refine ⟨?_, ?_, ?_, ?_⟩
  · simp [Windows.new]; split_ifs <;> simp
  · simp [Windows.new]; split_ifs <;> simp
  · simp [Windows.new]; split_ifs <;> simp
  · intro r bin hb
    cases r <;>
      simp only [Windows.get, Windows.new] at hb <;>
      exact List.eq_of_mem_replicate hb

/-- Witness for C8: bin counts for `max_gene_length = 4096`, window step
256, cutoff 2048 under absolute sizing, with all bins empty. -/
theorem windows_new_spec_witness :
    (0 < exArgsNew.window_step ∧ 0 ≤ (4096 : Int) ∧ 0 ≤ exArgsNew.cutoff)
    ∧ ((Windows.new 4096 exArgsNew).gene.length
        = if exArgsNew.absolute then (Int.tdiv 4096 exArgsNew.window_step).toNat else 100)
    ∧ ((Windows.new 4096 exArgsNew).upstream.length
        = if exArgsNew.absolute then (Int.tdiv exArgsNew.cutoff exArgsNew.window_step).toNat else 100)
    ∧ ((Windows.new 4096 exArgsNew).downstream.length
        = if exArgsNew.absolute then (Int.tdiv exArgsNew.cutoff exArgsNew.window_step).toNat else 100)
    ∧ ∀ r bin, bin ∈ (Windows.new 4096 exArgsNew).get r → bin = [] :=
  ⟨⟨by decide, by decide, by decide⟩,
    windows_new_spec 4096 exArgsNew (by decide) (by decide) (by decide)⟩

end Extractor

namespace Extractor

/-!
### The bin loop: supporting lemmas
-/

/-- The bound test of bin `i` in the loop of `place_in_windows`. -/
def binHit (step size position : F) (i : Nat) : Prop :=
  F.sub (F.mul (F.ofInt i) step) E ≤ position ∧
    position ≤ F.add (F.add (F.sub (F.mul (F.ofInt i) step) E) size) E

instance (step size position : F) (i : Nat) : Decidable (binHit step size position i) :=
  inferInstanceAs (Decidable (_ ∧ _))

theorem placeLoop_fst_length (site : MethylationSite) (region : Region)
    (step size pos : F) : ∀ (i₀ : Nat) (ls : List Window),
    (placeLoop site region step size pos i₀ ls).1.length = ls.length := by
  intro i₀ ls
  induction ls generalizing i₀ with
  | nil => rfl
  | cons w rest ih =>
    simp only [placeLoop]
    split_ifs <;> simp [ih]

theorem placeLoop_mem (site : MethylationSite) (region : Region)
    (step size pos : F) : ∀ (i₀ : Nat) (ls : List Window) (r : Region) (i : Nat),
    ((r, i) ∈ (placeLoop site region step size pos i₀ ls).2 ↔
      r = region ∧ i₀ ≤ i ∧ i < i₀ + ls.length ∧ binHit step size pos i) := by
  intro i₀ ls
  induction ls generalizing i₀ with
  | nil =>
    intro r i
    simp only [placeLoop, List.length_nil, Nat.add_zero]
    constructor
    · intro h
      simp at h
    · rintro ⟨-, h1, h2, -⟩
      omega
  | cons w rest ih =>
    intro r i
    simp only [placeLoop]
    split_ifs with h
    · simp only [List.mem_cons, ih (i₀ + 1) r i, Prod.mk.injEq]
      constructor
      · rintro (⟨rfl, rfl⟩ | ⟨rfl, h1, h2, h3⟩)
        · exact ⟨rfl, Nat.le_refl _, by simp, h⟩
        · exact ⟨rfl, by omega, by simp; omega, h3⟩
      · rintro ⟨rfl, h1, h2, h3⟩
        by_cases hi : i = i₀
        · exact Or.inl ⟨rfl, hi⟩
        · exact Or.inr ⟨rfl, by omega, by simp at h2 ⊢; omega, h3⟩
    · rw [ih (i₀ + 1) r i]
      constructor
      · rintro ⟨rfl, h1, h2, h3⟩
        exact ⟨rfl, by omega, by simp at h2 ⊢; omega, h3⟩
      · rintro ⟨rfl, h1, h2, h3⟩
        have hi : i ≠ i₀ := by
          rintro rfl
          exact h h3
        exact ⟨rfl, by omega, by simp at h2 ⊢; omega, h3⟩

theorem placeLoop_fst_getD (site : MethylationSite) (region : Region)
    (step size pos : F) : ∀ (i₀ j : Nat) (ls : List Window), j < ls.length →
    (placeLoop site region step size pos i₀ ls).1.getD j [] =
      (if binHit step size pos (i₀ + j) then ls.getD j [] ++ [site] else ls.getD j []) := by
  intro i₀ j ls
  induction ls generalizing i₀ j with
  | nil => intro h; simp at h
  | cons w rest ih =>
    intro hj
    simp only [placeLoop]
    cases j with
    | zero => split_ifs with h <;> simp_all [binHit]
    | succ j =>
      have hj' : j < rest.length := by simpa using hj
      have hrec := ih (i₀ + 1) j hj'
      have harith : i₀ + 1 + j = i₀ + (j + 1) := by omega
      rw [harith] at hrec
      by_cases h : F.sub (F.mul (F.ofInt (i₀ : Int)) step) E ≤ pos ∧
          pos ≤ F.add (F.add (F.sub (F.mul (F.ofInt (i₀ : Int)) step) E) size) E
      · rw [if_pos h]
        simpa [List.getD_cons_succ] using hrec
      · rw [if_neg h]
        simpa [List.getD_cons_succ] using hrec

theorem placeLoop_count (site : MethylationSite) (region : Region)
    (step size pos : F) : ∀ (i₀ : Nat) (ls : List Window),
    ((placeLoop site region step size pos i₀ ls).1.map List.length).sum =
      (ls.map List.length).sum + (placeLoop site region step size pos i₀ ls).2.length := by
  intro i₀ ls
  induction ls generalizing i₀ with
  | nil => rfl
  | cons w rest ih =>
    simp only [placeLoop]
    split_ifs with h <;> simp [ih (i₀ + 1)] <;> omega

theorem windows_get_set_same (w : Windows) (r : Region) (l : List Window) :
    (w.set r l).get r = l := by
  cases r <;> rfl

theorem windows_get_set_other (w : Windows) (r r' : Region) (l : List Window)
    (h : r' ≠ r) : (w.set r l).get r' = w.get r' := by
  cases r <;> cases r' <;> first | rfl | exact absurd rfl h

/-!
### Claim C10: frame conditions of `place_in_windows`
-/

/-- Claim C10: `place_in_windows` appends exactly one clone of the site to
the end of each bin whose `(Region, index)` pair it returns, leaves every
other bin of all three regions unchanged, and never changes the number of
bins of any region's array. -/
theorem place_in_windows_frame (site : MethylationSite) (gene : Gene)
    (w : Windows) (args : Args) :
    (∀ r, (((site.place_in_windows gene w args).1.get r).length = (w.get r).length))
    ∧ (∀ r i, (r, i) ∈ (site.place_in_windows gene w args).2 →
        ((site.place_in_windows gene w args).1.get r).getD i [] =
          (w.get r).getD i [] ++ [site])
    ∧ (∀ r i, (r, i) ∉ (site.place_in_windows gene w args).2 →
        ((site.place_in_windows gene w args).1.get r).getD i [] =
          (w.get r).getD i []) := by
  simp only [MethylationSite.place_in_windows]
  set region := placeRegion site gene with hregion
  set step := F.ofInt args.window_step
  set size := F.ofInt args.window_size
  set pos := placePosition site gene args
  refine ⟨?_, ?_, ?_⟩
  · intro r
    by_cases hr : r = region
    · subst hr
      rw [windows_get_set_same]
      exact placeLoop_fst_length site region step size pos 0 (w.get region)
    · rw [windows_get_set_other _ _ _ _ hr]
  · intro r i hmem
    rw [placeLoop_mem] at hmem
    obtain ⟨rfl, -, hlt, hhit⟩ := hmem
    rw [windows_get_set_same]
    rw [placeLoop_fst_getD site region step size pos 0 i (w.get region) (by omega)]
    simp [hhit]
  · intro r i hmem
    by_cases hr : r = region
    · subst hr
      rw [windows_get_set_same]
      by_cases hi : i < (w.get region).length
      · rw [placeLoop_fst_getD site region step size pos 0 i (w.get region) hi]
        have hnohit : ¬ binHit step size pos i := by
          intro hhit
          exact hmem ((placeLoop_mem site region step size pos 0 (w.get region) region i).2
            ⟨rfl, Nat.zero_le _, by omega, hhit⟩)
        simp [hnohit]
      · rw [List.getD_eq_default, List.getD_eq_default]
        · omega
        · rw [placeLoop_fst_length]; omega
    · rw [windows_get_set_other _ _ _ _ hr]

/-- Witness for C10: placing `exSite` (location 105) against `exGene` under
absolute sizing inserts into gene bins 3, 4 and 5, appending the site at the
end of bin 4 and leaving gene bin 0 and upstream bin 0 unchanged. -/
theorem place_in_windows_frame_witness :
    ((Region.Gene, 4) ∈ (exSite.place_in_windows exGene (Windows.new 100 exArgsAbs) exArgsAbs).2
      ∧ (Region.Gene, 0) ∉ (exSite.place_in_windows exGene (Windows.new 100 exArgsAbs) exArgsAbs).2)
    ∧ ((exSite.place_in_windows exGene (Windows.new 100 exArgsAbs) exArgsAbs).1.get Region.Gene).getD 4 []
        = ((Windows.new 100 exArgsAbs).get Region.Gene).getD 4 [] ++ [exSite]
    ∧ ((exSite.place_in_windows exGene (Windows.new 100 exArgsAbs) exArgsAbs).1.get Region.Gene).getD 0 []
        = ((Windows.new 100 exArgsAbs).get Region.Gene).getD 0 [] :=
  ⟨⟨by decide, by decide⟩,
    (place_in_windows_frame exSite exGene (Windows.new 100 exArgsAbs) exArgsAbs).2.1
      Region.Gene 4 (by decide),
    (place_in_windows_frame exSite exGene (Windows.new 100 exArgsAbs) exArgsAbs).2.2
      Region.Gene 0 (by decide)⟩

/-!
### Claim C3: the bin-membership interval
-/

/-- Gene `[0, 1000]` on chromosome 1 (used for the C3 boundary analysis). -/
def exGeneC3 : Gene := ⟨1, 0, 1000, Strand.Sense, ""⟩

/-- A site at location 51 of `exGeneC3`: its percentage position is 5.1. -/
def exSiteC3 : MethylationSite := ⟨1, 51, Strand.Sense, ""⟩

/-- Relative sizing, window size 2, step 1, cutoff 100. -/
def exArgsC3 : Args := ⟨"", "", 2, 1, "", false, 100, false⟩

/-- Claim C3 counterexample: for gene-region bin 3 (step 1, size 2) the
claimed closed interval is `[3·1 − 0.1, 3·1 + 2 + 0.1] = [2.9, 5.1]` and the
site's normalized position 5.1 lies in it, yet `place_in_windows` does not
return `(Gene, 3)`: the code's upper bound is `lower_bound + size + E
= i·step + size = 5`, not `i·step + size + E`. -/
theorem place_bin_claimed_interval_fails :
    (F.sub (F.mul (F.ofInt 3) (F.ofInt exArgsC3.window_step)) E
        ≤ placePosition exSiteC3 exGeneC3 exArgsC3
      ∧ placePosition exSiteC3 exGeneC3 exArgsC3
        ≤ F.add (F.add (F.mul (F.ofInt 3) (F.ofInt exArgsC3.window_step))
            (F.ofInt exArgsC3.window_size)) E)
    ∧ (Region.Gene, 3) ∉
        (exSiteC3.place_in_windows exGeneC3 (Windows.new 1000 exArgsC3) exArgsC3).2 := by
  decide

/-- Claim C3 (amended): with tolerance `E = 0.1`, step and size from the
configuration, and `position` the (possibly percentage-normalized) position
of the site within its region, the site's `(Region, i)` pair is returned
(and the site inserted into bin `i`) iff `i` is a bin index of the target
region's array and `position` lies in the closed interval
`[i·step − E, (i·step − E) + size + E]` (whose upper end equals
`i·step + size`: the code adds `size + E` to the already-lowered bound);
consecutive bins all matching the position are all returned. -/
theorem place_bin_interval_spec (site : MethylationSite) (gene : Gene)
    (w : Windows) (args : Args) (r : Region) (i : Nat) :
    (r, i) ∈ (site.place_in_windows gene w args).2 ↔
      r = placeRegion site gene ∧ i < (w.get (placeRegion site gene)).length ∧
        binHit (F.ofInt args.window_step) (F.ofInt args.window_size)
          (placePosition site gene args) i := by
  simp only [MethylationSite.place_in_windows]
  rw [placeLoop_mem]
  constructor
  · rintro ⟨rfl, -, h2, h3⟩
    exact ⟨rfl, by omega, h3⟩
  · rintro ⟨rfl, h2, h3⟩
    exact ⟨rfl, Nat.zero_le _, by omega, h3⟩

end Extractor

namespace Extractor

/-!
### Claim C9: the distribution summary
-/

/-- The `"i,count\n"` rows for consecutive bins, first index `i`. -/
def csvRows : Nat → List Window → String
  | _, [] => ""
  | i, w :: rest => Windows.csvRow i w ++ csvRows (i + 1) rest

/-- The total number of placements stored in an aggregator: every bin of
all three regions contributes its length (a site that landed in several
bins is counted once per bin). -/
def sectionCounts (w : Windows) : Nat :=
  ((w.upstream ++ w.gene ++ w.downstream).map List.length).sum

/-- Run a list of `(site, gene)` placements through `place_in_windows`,
also accumulating how many `(Region, index)` insertions were reported. -/
def runPlacements (args : Args) : List (MethylationSite × Gene) → Windows → Windows × Nat
  | [], w => (w, 0)
  | p :: rest, w =>
    let r := p.1.place_in_windows p.2 w args
    let t := runPlacements args rest r.1
    (t.1, r.2.length + t.2)

theorem foldl_enumFrom_csvRows (ws : List Window) : ∀ (i : Nat) (acc : String),
    (List.enumFrom i ws).foldl (fun acc p => acc ++ Windows.csvRow p.1 p.2) acc
      = acc ++ csvRows i ws := by
  induction ws with
  | nil =>
    intro i acc
    simp [csvRows]
  | cons w rest ih =>
    intro i acc
    simp only [List.enumFrom, List.foldl_cons, csvRows, ih, String.append_assoc]

theorem csvRows_append (a b : List Window) : ∀ i : Nat,
    csvRows i (a ++ b) = csvRows i a ++ csvRows (i + a.length) b := by
  induction a with
  | nil =>
    intro i
    simp [csvRows]
  | cons w rest ih =>
    intro i
    show csvRows i (w :: (rest ++ b)) = csvRows i (w :: rest) ++ csvRows (i + (w :: rest).length) b
    simp only [csvRows, ih (i + 1), String.append_assoc, List.length_cons]
    have h2 : i + 1 + rest.length = i + (rest.length + 1) := by omega
    rw [h2]

/-- The shape of `Windows::distribution`, for every aggregator: one
`index,count` row per bin from index 0 in each of the three region
sections, then a `Combined` section that enumerates the upstream bins
first, then the gene bins, then the downstream bins under one continuously
increasing index. -/
theorem distribution_eq (w : Windows) :
    Windows.distribution w
      = "Upstream\n" ++ csvRows 0 w.upstream
        ++ "Gene\n" ++ csvRows 0 w.gene
        ++ "Downstream\n" ++ csvRows 0 w.downstream
        ++ "Combined\n"
        ++ (csvRows 0 w.upstream ++ csvRows w.upstream.length w.gene
            ++ csvRows (w.upstream.length + w.gene.length) w.downstream) := by
  have henum : ∀ (ls : List Window) (acc : String),
      ls.enum.foldl (fun acc p => acc ++ Windows.csvRow p.1 p.2) acc
        = acc ++ csvRows 0 ls := fun ls acc => foldl_enumFrom_csvRows ls 0 acc
  simp only [Windows.distribution, henum]
  rw [csvRows_append, csvRows_append]
  simp only [String.append_assoc, List.length_append, Nat.zero_add]
  rfl

theorem sectionCounts_place (site : MethylationSite) (gene : Gene)
    (w : Windows) (args : Args) :
    sectionCounts (site.place_in_windows gene w args).1
      = sectionCounts w + (site.place_in_windows gene w args).2.length := by
  simp only [MethylationSite.place_in_windows]
  have hcount := placeLoop_count site (placeRegion site gene)
    (F.ofInt args.window_step) (F.ofInt args.window_size)
    (placePosition site gene args) 0
  cases hreg : placeRegion site gene <;>
    simp_all [sectionCounts, Windows.set, Windows.get, List.map_append,
      List.sum_append, hreg] <;> omega

theorem runPlacements_counts (args : Args) : ∀ (ps : List (MethylationSite × Gene))
    (w : Windows), sectionCounts (runPlacements args ps w).1
      = sectionCounts w + (runPlacements args ps w).2 := by
  intro ps
  induction ps with
  | nil => intro w; simp [runPlacements]
  | cons p rest ih =>
    intro w
    simp only [runPlacements]
    rw [ih, sectionCounts_place]
    omega

theorem sectionCounts_new (max_gene_length : Int) (args : Args) :
    sectionCounts (Windows.new max_gene_length args) = 0 := by
  simp [sectionCounts, Windows.new, List.map_append, List.sum_append]

/-- Claim C9: for every aggregator built by a sequence of placements from a
fresh `Windows::new`, the distribution summary lists one `index,count` row
per bin from index 0 for each of Upstream, Gene and Downstream, followed by
a Combined section enumerating the upstream bins first, then gene, then
downstream under a single continuously increasing index; and the counts of
the three region sections sum to the total number of placements recorded
(one per `(Region, index)` pair ever returned by `place_in_windows`). -/
theorem distribution_spec (args : Args) (max_gene_length : Int)
    (ps : List (MethylationSite × Gene)) :
    (Windows.distribution (runPlacements args ps (Windows.new max_gene_length args)).1
      = "Upstream\n"
        ++ csvRows 0 (runPlacements args ps (Windows.new max_gene_length args)).1.upstream
        ++ "Gene\n"
        ++ csvRows 0 (runPlacements args ps (Windows.new max_gene_length args)).1.gene
        ++ "Downstream\n"
        ++ csvRows 0 (runPlacements args ps (Windows.new max_gene_length args)).1.downstream
        ++ "Combined\n"
        ++ (csvRows 0 (runPlacements args ps (Windows.new max_gene_length args)).1.upstream
            ++ csvRows (runPlacements args ps (Windows.new max_gene_length args)).1.upstream.length
                (runPlacements args ps (Windows.new max_gene_length args)).1.gene
            ++ csvRows
                ((runPlacements args ps (Windows.new max_gene_length args)).1.upstream.length
                  + (runPlacements args ps (Windows.new max_gene_length args)).1.gene.length)
                (runPlacements args ps (Windows.new max_gene_length args)).1.downstream))
    ∧ sectionCounts (runPlacements args ps (Windows.new max_gene_length args)).1
        = (runPlacements args ps (Windows.new max_gene_length args)).2 := by
  refine ⟨distribution_eq _, ?_⟩
  rw [runPlacements_counts, sectionCounts_new]
  omega

end Extractor

namespace Extractor

/-!
### Claim C7: the site parser
-/

/-- A valid CG methylome record (the line from the repository's tests). -/
def exLine : String := "1\t23151\t+\tCG\t0\t8\t0.9999\tU\t0.0025"

/-- The site parsed from `exLine`. -/
def exParsedSite : MethylationSite := ⟨1, 23151, Strand.Sense, exLine⟩

/-- Claim C7: `from_methylome_file_line(s, invert)` returns `Ok` if and only
if `s` splits on tab into exactly 9 fields, the 4th field is the literal
`"CG"`, the 1st field parses as a `u8` and the 2nd field parses as an
`i32`; in every other case it returns a typed error, and on success the
site retains the full original line verbatim. -/
theorem from_methylome_file_line_spec (s : String) (invert : Bool) :
    ((MethylationSite.from_methylome_file_line s invert).isOk = true ↔
      ((splitTab s.data).length = 9 ∧ (splitTab s.data).getD 3 [] = "CG".data ∧
        (rustParseU8 ((splitTab s.data).getD 0 [])).isSome = true ∧
        (rustParseI32 ((splitTab s.data).getD 1 [])).isSome = true))
    ∧ (∀ site, MethylationSite.from_methylome_file_line s invert = Except.ok site →
        site.original = s) := by
  rcases hsplit : splitTab s.data with _ |
    ⟨f0, _ | ⟨f1, _ | ⟨f2, _ | ⟨f3, _ | ⟨f4, _ | ⟨f5, _ | ⟨f6, _ | ⟨f7, _ | ⟨f8, _ |
      ⟨f9, rest⟩⟩⟩⟩⟩⟩⟩⟩⟩⟩ <;>
    simp [MethylationSite.from_methylome_file_line, hsplit, Except.isOk, Except.toBool]
  -- only the exactly-9-fields case remains
  by_cases hcg : f3 = "CG".data
  · rw [if_pos hcg]
    rcases hu : rustParseU8 f0 with _ | c
    · simp [hcg, hu, Except.toBool]
    · rcases hi : rustParseI32 f1 with _ | loc
      · simp [hcg, hu, hi, Except.toBool]
      · simp only [hu, hi]
        refine ⟨by simp [Except.toBool, hcg, hu, hi], ?_⟩
        intro site h
        cases h
        rfl
  · rw [if_neg hcg]
    simp [Except.toBool, hcg]

/-- Witness for C7: the parser accepts the repository's sample record and
the parsed site retains the whole line verbatim. -/
theorem from_methylome_file_line_spec_witness :
    (MethylationSite.from_methylome_file_line exLine false).isOk = true ∧
      exParsedSite.original = exLine :=
  ⟨(from_methylome_file_line_spec exLine false).1.mpr (by decide),
    (from_methylome_file_line_spec exLine false).2 exParsedSite rfl⟩

end Extractor

namespace Extractor

/-!
### Gene Index invariants (spec §3) and the binary-search characterization
-/

/-- The genes of a bucket are sorted ascending by `end` (spec §3). -/
def sortedByEnd (l : List Gene) : Prop :=
  l.Pairwise (fun a b => a.«end» ≤ b.«end»)

/-- The genes of a bucket are pairwise non-overlapping intervals (spec §3). -/
def disjointGenes (l : List Gene) : Prop :=
  l.Pairwise (fun a b => a.«end» < b.start ∨ b.«end» < a.start)

/-- Every gene interval is well formed, `start ≤ end` (spec §3). -/
def wfGenes (l : List Gene) : Prop := ∀ g ∈ l, g.start ≤ g.«end»

/-- The per-bucket invariant of the Gene Index. -/
def bucketInv (l : List Gene) : Prop := sortedByEnd l ∧ disjointGenes l ∧ wfGenes l

/-- The whole-index invariant: every per-strand bucket satisfies `bucketInv`. -/
def GenomeInv (genome : List GenesByStrand) : Prop :=
  ∀ c ∈ genome, bucketInv c.sense ∧ bucketInv c.antisense

/-- The partition property of the built index: bucket `k` holds exactly the
genes of chromosome `k+1`, split by strand. -/
def GenomeHom (genome : List GenesByStrand) : Prop :=
  ∀ k, k < genome.length →
    (∀ g ∈ (genome.getD k default).sense, g.chromosome = k + 1 ∧ g.strand = Strand.Sense) ∧
    (∀ g ∈ (genome.getD k default).antisense, g.chromosome = k + 1 ∧ g.strand = Strand.Antisense)

theorem getD_eq_get_of_lt (l : List Gene) {j : Nat} (hj : j < l.length) :
    l.getD j default = l.get ⟨j, hj⟩ := by
  rw [List.getD_eq_get?, List.get?_eq_get hj]
  rfl

theorem getD_mem_of_lt (l : List Gene) {j : Nat} (hj : j < l.length) :
    l.getD j default ∈ l := by
  rw [getD_eq_get_of_lt l hj]
  exact l.get_mem j hj

/-- Sorted-plus-disjoint buckets are ordered interval chains: any earlier
gene ends strictly before any later gene starts. -/
theorem bucket_chain {l : List Gene} (hinv : bucketInv l) :
    ∀ i j, i < j → j < l.length →
      (l.getD i default).«end» < (l.getD j default).start := by
  obtain ⟨hs, hd, hw⟩ := hinv
  intro i j hij hj
  have hi : i < l.length := lt_trans hij hj
  unfold sortedByEnd at hs
  unfold disjointGenes at hd
  rw [List.pairwise_iff_get] at hs hd
  have h1 := hs ⟨i, hi⟩ ⟨j, hj⟩ (Fin.mk_lt_mk.mpr hij)
  have h2 := hd ⟨i, hi⟩ ⟨j, hj⟩ (Fin.mk_lt_mk.mpr hij)
  have h3 := hw _ (l.get_mem j hj)
  have h4 := hw _ (l.get_mem i hi)
  rw [getD_eq_get_of_lt l hi, getD_eq_get_of_lt l hj]
  rcases h2 with h2 | h2
  · exact h2
  · omega

/-- The binary-search keys `end + cutoff` of a valid bucket are strictly
increasing. -/
theorem bucket_keys_strict {l : List Gene} (hinv : bucketInv l) (cutoff : Int) :
    ∀ i j, i < j → j < l.length →
      (l.getD i default).«end» + cutoff < (l.getD j default).«end» + cutoff := by
  intro i j hij hj
  have hc := bucket_chain hinv i j hij hj
  have hw := hinv.2.2 _ (getD_mem_of_lt l hj)
  omega

/-- Characterization of the collapsed Rust binary search on a bucket with
strictly increasing keys: the result `r` satisfies: every key before `r` is
strictly below the target, and every key from `r` on is at least the
target. -/
theorem bsGo_spec (genes : List Gene) (cutoff target : Int)
    (hstrict : ∀ i j, i < j → j < genes.length →
      (genes.getD i default).«end» + cutoff < (genes.getD j default).«end» + cutoff) :
    ∀ n left right, right - left = n → left ≤ right → right ≤ genes.length →
      (∀ j, j < left → (genes.getD j default).«end» + cutoff < target) →
      (∀ j, right ≤ j → j < genes.length →
        target < (genes.getD j default).«end» + cutoff) →
      (∀ j, j < rustBinSearchGo genes cutoff target left right → j < genes.length →
          (genes.getD j default).«end» + cutoff < target)
      ∧ (∀ j, rustBinSearchGo genes cutoff target left right ≤ j → j < genes.length →
          target ≤ (genes.getD j default).«end» + cutoff)
      ∧ left ≤ rustBinSearchGo genes cutoff target left right
      ∧ rustBinSearchGo genes cutoff target left right ≤ right := by
  intro n
  induction n using Nat.strong_induction_on with
  | _ n ih =>
    intro left right hn hlr hrlen hlow hhigh
    by_cases hlt : left < right
    · have body : rustBinSearchGo genes cutoff target left right =
          (if (genes.getD (left + (right - left) / 2) default).«end» + cutoff < target then
            rustBinSearchGo genes cutoff target (left + (right - left) / 2 + 1) right
          else if target < (genes.getD (left + (right - left) / 2) default).«end» + cutoff then
            rustBinSearchGo genes cutoff target left (left + (right - left) / 2)
          else left + (right - left) / 2) := by
        rw [rustBinSearchGo, dif_pos hlt]
      set m := left + (right - left) / 2 with hm
      have hmlt : m < right := by omega
      have hmge : left ≤ m := by omega
      have hmlen : m < genes.length := by omega
      by_cases h1 : (genes.getD m default).«end» + cutoff < target
      · rw [body, if_pos h1]
        have hrec := ih (right - (m + 1)) (by omega) (m + 1) right rfl (by omega) hrlen
          (fun j hj => by
            rcases Nat.lt_or_ge j m with hjm | hjm
            · exact lt_trans (hstrict j m hjm hmlen) h1
            · have : j = m := by omega
              rw [this]
              exact h1)
          hhigh
        exact ⟨hrec.1, hrec.2.1, by omega, hrec.2.2.2⟩
      · by_cases h2 : target < (genes.getD m default).«end» + cutoff
        · rw [body, if_neg h1, if_pos h2]
          have hrec := ih (m - left) (by omega) left m rfl (by omega) (by omega) hlow
            (fun j hj hjlen => by
              rcases Nat.lt_or_ge m j with hmj | hmj
              · exact lt_trans h2 (hstrict m j hmj hjlen)
              · have : j = m := by omega
                rw [this]
                exact h2)
          exact ⟨hrec.1, hrec.2.1, hrec.2.2.1, by omega⟩
        · rw [body, if_neg h1, if_neg h2]
          refine ⟨?_, ?_, by omega, by omega⟩
          · intro j hj hjlen
            have := hstrict j m hj hmlen
            omega
          · intro j hmj hjlen
            rcases Nat.lt_or_ge m j with hlt2 | hle2
            · have := hstrict m j hlt2 hjlen
              omega
            · have : j = m := by omega
              rw [this]
              omega
    · have hres : rustBinSearchGo genes cutoff target left right = left := by
        rw [rustBinSearchGo, dif_neg hlt]
      rw [hres]
      exact ⟨fun j hj _ => hlow j hj,
        fun j hj hjlen => le_of_lt (hhigh j (by omega) hjlen),
        Nat.le_refl _, by omega⟩

end Extractor

namespace Extractor

/-- Unfolding of the boolean `is_in_gene` test into its four conditions. -/
theorem is_in_gene_iff (site : MethylationSite) (g : Gene) (cutoff : Int) :
    site.is_in_gene g cutoff = true ↔
      (site.chromosome = g.chromosome ∧ g.start ≤ site.location + cutoff ∧
        site.location ≤ g.«end» + cutoff ∧ site.strand = g.strand) := by
  simp [MethylationSite.is_in_gene, and_assoc]

theorem bucketInv_strand {genome : List GenesByStrand} {k : Nat} {c : GenesByStrand}
    (hinv : GenomeInv genome) (hc : genome.get? k = some c) (s : Strand) :
    bucketInv (strandGenes c s) := by
  have hm := List.get?_mem hc
  have h := hinv c hm
  cases s
  · exact h.1
  · exact h.2

/-- `find?` returns the element at the first index whose test succeeds. -/
theorem find?_at_index (p : Gene → Bool) :
    ∀ (l : List Gene) (res : Nat), res < l.length →
      (∀ j, j < res → p (l.getD j default) = false) →
      p (l.getD res default) = true →
      l.find? p = some (l.getD res default) := by
  intro l
  induction l with
  | nil =>
    intro res h
    simp at h
  | cons a tail ih =>
    intro res hres hfalse htrue
    cases res with
    | zero =>
      rw [List.getD_cons_zero] at htrue ⊢
      exact List.find?_cons_of_pos tail htrue
    | succ res =>
      have h0 : p a = false := by
        have h1 := hfalse 0 (Nat.succ_pos _)
        rwa [List.getD_cons_zero] at h1
      rw [List.getD_cons_succ,
        List.find?_cons_of_neg tail (by rw [h0]; exact Bool.false_ne_true)]
      exact ih res (by simpa using hres)
        (fun j hj => by
          have h2 := hfalse (j + 1) (by omega)
          rwa [List.getD_cons_succ] at h2)
        (by rwa [List.getD_cons_succ] at htrue)

/-- Characterization of `find_gene` on a valid index: it returns `some g`
exactly when `g` sits at the first bucket position whose key
`end + cutoff` reaches the site's location, and `g` passes the
`is_in_gene` containment test. -/
theorem find_gene_char (site : MethylationSite) (genome : List GenesByStrand)
    (cutoff : Int) (g : Gene) (hinv : GenomeInv genome) :
    site.find_gene genome cutoff = some g ↔
      ∃ c, genome.get? (site.chromosome - 1) = some c ∧
        ∃ res, res < (strandGenes c site.strand).length ∧
          (strandGenes c site.strand).getD res default = g ∧
          (∀ j, j < res →
            ((strandGenes c site.strand).getD j default).«end» + cutoff
              < site.location) ∧
          site.location ≤ g.«end» + cutoff ∧
          site.is_in_gene g cutoff = true := by
  constructor
  · intro h
    unfold MethylationSite.find_gene at h
    cases hc : genome.get? (site.chromosome - 1) with
    | none =>
      rw [hc] at h
      exact absurd h (by simp)
    | some c =>
      rw [hc] at h
      dsimp only at h
      have hbinv := bucketInv_strand hinv hc site.strand
      have hstrict := bucket_keys_strict hbinv cutoff
      obtain ⟨hbs1, hbs2, -, -⟩ :=
        bsGo_spec (strandGenes c site.strand) cutoff site.location hstrict
          (strandGenes c site.strand).length 0 (strandGenes c site.strand).length
          rfl (Nat.zero_le _) (Nat.le_refl _)
          (fun j hj => absurd hj (Nat.not_lt_zero j))
          (fun j hj hjlen => absurd hjlen (by omega))
      by_cases hlen : (strandGenes c site.strand).length <
          rustBinSearchGo (strandGenes c site.strand) cutoff site.location 0
            (strandGenes c site.strand).length + 1
      · rw [if_pos hlen] at h
        exact absurd h (by simp)
      · rw [if_neg hlen] at h
        by_cases hig : site.is_in_gene
            ((strandGenes c site.strand).getD
              (rustBinSearchGo (strandGenes c site.strand) cutoff site.location 0
                (strandGenes c site.strand).length) default) cutoff
        · rw [if_pos hig, Option.some_inj] at h
          refine ⟨c, rfl, rustBinSearchGo (strandGenes c site.strand) cutoff
            site.location 0 (strandGenes c site.strand).length, by omega, h, ?_, ?_, ?_⟩
          · intro j hj
            exact hbs1 j hj (by omega)
          · rw [← h]
            exact hbs2 _ (Nat.le_refl _) (by omega)
          · rwa [h] at hig
        · rw [if_neg hig] at h
          exact absurd h (by simp)
  · rintro ⟨c, hc, res, hres, hgd, hlow, hle, hig⟩
    unfold MethylationSite.find_gene
    rw [hc]
    dsimp only
    have hbinv := bucketInv_strand hinv hc site.strand
    have hstrict := bucket_keys_strict hbinv cutoff
    obtain ⟨hbs1, hbs2, -, -⟩ :=
      bsGo_spec (strandGenes c site.strand) cutoff site.location hstrict
        (strandGenes c site.strand).length 0 (strandGenes c site.strand).length
        rfl (Nat.zero_le _) (Nat.le_refl _)
        (fun j hj => absurd hj (Nat.not_lt_zero j))
        (fun j hj hjlen => absurd hjlen (by omega))
    have hreq : rustBinSearchGo (strandGenes c site.strand) cutoff site.location 0
        (strandGenes c site.strand).length = res := by
      rcases Nat.lt_trichotomy (rustBinSearchGo (strandGenes c site.strand) cutoff
        site.location 0 (strandGenes c site.strand).length) res with hlt | heq | hgt
      · have h1 := hlow _ hlt
        have h2 := hbs2 _ (Nat.le_refl _) (by omega)
        omega
      · exact heq
      · have h1 := hbs1 res hgt hres
        rw [hgd] at h1
        omega
    rw [hreq, if_neg (by omega), hgd, if_pos hig]

end Extractor

namespace Extractor

/-- The bucket that `find_gene` searches for a given site: the strand list
of the site's chromosome entry. -/
def bucketOf (site : MethylationSite) (genome : List GenesByStrand) : List Gene :=
  strandGenes (genome.getD (site.chromosome - 1) default) site.strand

theorem is_in_gene_eq_false (site : MethylationSite) (g : Gene) (cutoff : Int)
    (h : ¬(site.chromosome = g.chromosome ∧ g.start ≤ site.location + cutoff ∧
      site.location ≤ g.«end» + cutoff ∧ site.strand = g.strand)) :
    site.is_in_gene g cutoff = false := by
  cases hb : site.is_in_gene g cutoff
  · rfl
  · exact absurd ((is_in_gene_iff site g cutoff).mp hb) h

/-- Claim C4: on a genome whose per-(chromosome, strand) buckets are sorted
ascending by `end`, pairwise non-overlapping, well-formed and correctly
partitioned (each bucket holds exactly its chromosome's genes of its
strand), and for a site whose chromosome is within the index's range,
`find_gene` agrees with a linear scan of the bucket under the `is_in_gene`
containment test: it returns the (then unique) gene accepted by the test,
or `none` when no gene qualifies. -/
theorem find_gene_agrees_linear_scan (site : MethylationSite)
    (genome : List GenesByStrand) (cutoff : Int)
    (hlo : 1 ≤ site.chromosome) (hhi : site.chromosome ≤ genome.length)
    (hinv : GenomeInv genome) (hhom : GenomeHom genome) :
    site.find_gene genome cutoff
      = (bucketOf site genome).find? (fun g => site.is_in_gene g cutoff) := by
  have hk : site.chromosome - 1 < genome.length := by omega
  have hgd : genome.getD (site.chromosome - 1) default = genome.get ⟨_, hk⟩ := by
    rw [List.getD_eq_get?, List.get?_eq_get hk]
    rfl
  have hc : genome.get? (site.chromosome - 1)
      = some (genome.getD (site.chromosome - 1) default) := by
    rw [List.get?_eq_get hk, hgd]
  have hbinv : bucketInv (bucketOf site genome) :=
    bucketInv_strand hinv hc site.strand
  have hbhom : ∀ g ∈ bucketOf site genome,
      g.chromosome = site.chromosome ∧ g.strand = site.strand := by
    have hh := hhom (site.chromosome - 1) hk
    intro g hg
    cases hs : site.strand
    · have hg' : g ∈ (genome.getD (site.chromosome - 1) default).sense := by
        unfold bucketOf at hg
        rw [hs] at hg
        exact hg
      have h1 := hh.1 g hg'
      exact ⟨by omega, h1.2⟩
    · have hg' : g ∈ (genome.getD (site.chromosome - 1) default).antisense := by
        unfold bucketOf at hg
        rw [hs] at hg
        exact hg
      have h1 := hh.2 g hg'
      exact ⟨by omega, h1.2⟩
  have hstrict := bucket_keys_strict hbinv cutoff
  obtain ⟨hbs1, hbs2, -, -⟩ :=
    bsGo_spec (bucketOf site genome) cutoff site.location hstrict
      (bucketOf site genome).length 0 (bucketOf site genome).length
      rfl (Nat.zero_le _) (Nat.le_refl _)
      (fun j hj => absurd hj (Nat.not_lt_zero j))
      (fun j hj hjlen => absurd hjlen (by omega))
  unfold MethylationSite.find_gene
  rw [hc]
  dsimp only
  show (if (bucketOf site genome).length <
      rustBinSearchGo (bucketOf site genome) cutoff site.location 0
        (bucketOf site genome).length + 1 then none
    else if site.is_in_gene ((bucketOf site genome).getD
        (rustBinSearchGo (bucketOf site genome) cutoff site.location 0
          (bucketOf site genome).length) default) cutoff then
      some ((bucketOf site genome).getD
        (rustBinSearchGo (bucketOf site genome) cutoff site.location 0
          (bucketOf site genome).length) default)
    else none) = _
  set bucket := bucketOf site genome with hbucket
  set r := rustBinSearchGo bucket cutoff site.location 0 bucket.length with hrdef
  by_cases hlen : bucket.length < r + 1
  · rw [if_pos hlen]
    symm
    rw [List.find?_eq_none]
    intro g hg hp
    obtain ⟨⟨j, hj⟩, hget⟩ := List.mem_iff_get.mp hg
    have hkey := hbs1 j (by omega) hj
    rw [getD_eq_get_of_lt bucket hj, hget] at hkey
    have := ((is_in_gene_iff site g cutoff).mp hp).2.2.1
    omega
  · have hrlen : r < bucket.length := by omega
    rw [if_neg hlen]
    have hfalse_before : ∀ j, j < r →
        site.is_in_gene (bucket.getD j default) cutoff = false := by
      intro j hj
      refine is_in_gene_eq_false site _ cutoff ?_
      rintro ⟨-, -, hloc, -⟩
      have hkey := hbs1 j hj (by omega)
      omega
    by_cases hig : site.is_in_gene (bucket.getD r default) cutoff = true
    · rw [if_pos hig]
      symm
      exact find?_at_index _ bucket r hrlen hfalse_before hig
    · rw [if_neg hig]
      symm
      rw [List.find?_eq_none]
      intro g hg hp
      obtain ⟨⟨j, hj⟩, hget⟩ := List.mem_iff_get.mp hg
      have hgd_j : bucket.getD j default = g := by
        rw [getD_eq_get_of_lt bucket hj, hget]
      rcases Nat.lt_trichotomy j r with hlt | heq | hgt
      · have hf := hfalse_before j hlt
        rw [hgd_j] at hf
        rw [hp] at hf
        exact Bool.noConfusion hf
      · rw [heq] at hgd_j
        rw [hgd_j] at hig
        exact hig hp
      · -- a later gene cannot qualify: the candidate failed only on its
        -- start bound, and later genes start even further right
        have hcand_mem : bucket.getD r default ∈ bucket := getD_mem_of_lt bucket hrlen
        have hcand_hom := hbhom _ hcand_mem
        have hcand_key := hbs2 r (Nat.le_refl _) hrlen
        have hcand_start : site.location + cutoff < (bucket.getD r default).start := by
          by_contra hcon
          exact hig ((is_in_gene_iff site _ cutoff).mpr
            ⟨hcand_hom.1.symm, by omega, hcand_key, hcand_hom.2.symm⟩)
        have hchain := bucket_chain hbinv r j hgt hj
        have hwf := hbinv.2.2 _ hcand_mem
        have hstart_j := ((is_in_gene_iff site g cutoff).mp hp).2.1
        rw [hgd_j] at hchain
        omega

instance (l : List Gene) : Decidable (sortedByEnd l) := by
  unfold sortedByEnd
  infer_instance

instance (l : List Gene) : Decidable (disjointGenes l) := by
  unfold disjointGenes
  infer_instance

instance (l : List Gene) : Decidable (wfGenes l) := by
  unfold wfGenes
  infer_instance

instance (l : List Gene) : Decidable (bucketInv l) := by
  unfold bucketInv
  infer_instance

instance (genome : List GenesByStrand) : Decidable (GenomeInv genome) := by
  unfold GenomeInv
  infer_instance

instance (genome : List GenesByStrand) : Decidable (GenomeHom genome) := by
  unfold GenomeHom
  infer_instance

/-- A two-gene index on chromosome 1, sense strand. -/
def exGenome : List GenesByStrand :=
  [⟨[⟨1, 0, 10, Strand.Sense, "a"⟩, ⟨1, 20, 30, Strand.Sense, "b"⟩], []⟩]

/-- A site inside the second gene of `exGenome`. -/
def exSiteC4 : MethylationSite := ⟨1, 25, Strand.Sense, ""⟩

/-- Witness for C4: on the concrete two-gene index, the binary-search
lookup agrees with the linear scan (both find the gene `[20, 30]`). -/
theorem find_gene_agrees_linear_scan_witness :
    exSiteC4.find_gene exGenome 0
      = (bucketOf exSiteC4 exGenome).find? (fun g => exSiteC4.is_in_gene g 0) :=
  find_gene_agrees_linear_scan exSiteC4 exGenome 0
    (by decide) (by decide) (by decide) (by decide)

end Extractor

namespace Extractor

/-!
### Claim C5: the sticky last-gene cache of `extract_windows`
-/

/-- The sites successfully parsed from a list of lines. -/
def parsedSites (lines : List String) (invert : Bool) : List MethylationSite :=
  lines.filterMap (fun l => (MethylationSite.from_methylome_file_line l invert).toOption)

theorem find_gene_is_in_gene {site : MethylationSite} {genome : List GenesByStrand}
    {cutoff : Int} {g : Gene} (hinv : GenomeInv genome)
    (hfg : site.find_gene genome cutoff = some g) :
    site.is_in_gene g cutoff = true := by
  obtain ⟨c, -, res, -, -, -, -, h⟩ := (find_gene_char site genome cutoff g hinv).mp hfg
  exact h

/-- The heart of the sticky-cache argument: if a fresh lookup at an earlier
site returned `g`, then at any not-earlier site that still lies in `g`'s
cutoff-extended interval, a fresh lookup also returns `g` — `g` is still the
first bucket entry whose key reaches the new location. -/
theorem find_gene_mono (site site' : MethylationSite) (genome : List GenesByStrand)
    (cutoff : Int) (g : Gene) (hinv : GenomeInv genome)
    (hfg : site.find_gene genome cutoff = some g)
    (hig : site'.is_in_gene g cutoff = true)
    (hloc : site.location ≤ site'.location) :
    site'.find_gene genome cutoff = some g := by
  rw [find_gene_char site genome cutoff g hinv] at hfg
  obtain ⟨c, hc, res, hres, hgd, hlow, hle, hig0⟩ := hfg
  rw [find_gene_char site' genome cutoff g hinv]
  have h1 := (is_in_gene_iff site g cutoff).mp hig0
  have h2 := (is_in_gene_iff site' g cutoff).mp hig
  have hch : site'.chromosome - 1 = site.chromosome - 1 := by
    rw [h2.1, ← h1.1]
  have hstr : site'.strand = site.strand := by
    rw [h2.2.2.2, ← h1.2.2.2]
  refine ⟨c, by rw [hch]; exact hc, res, ?_⟩
  rw [hstr]
  exact ⟨hres, hgd, fun j hj => lt_of_lt_of_le (hlow j hj) hloc, h2.2.2.1, hig⟩

/-- The streaming loop with the sticky cache equals the fresh-lookup loop,
given the index invariant, the per-chromosome ascending ordering of the
parsed sites, and a cache content that fresh lookups would reproduce. -/
theorem extractGo_eq (genome : List GenesByStrand) (args : Args)
    (hinv : GenomeInv genome) :
    ∀ (ls : List String) (last : Option Gene) (w : Windows),
      (parsedSites ls args.invert).Pairwise
        (fun a b => a.chromosome = b.chromosome → a.location ≤ b.location) →
      (∀ g, last = some g → ∀ s ∈ parsedSites ls args.invert,
          s.is_in_gene g args.cutoff = true →
          s.find_gene genome args.cutoff = some g) →
      extractGo genome args ls last w = extractRefGo genome args ls w := by
  intro ls
  induction ls with
  | nil =>
    intro last w _ _
    rfl
  | cons line rest ih =>
    intro last w hord hstk
    cases hp : MethylationSite.from_methylome_file_line line args.invert with
    | error e =>
      have hps : parsedSites (line :: rest) args.invert = parsedSites rest args.invert := by
        simp [parsedSites, hp, Except.toOption]
      rw [hps] at hord hstk
      simp only [extractGo, extractRefGo, hp]
      exact ih last w hord hstk
    | ok cg =>
      have hps : parsedSites (line :: rest) args.invert
          = cg :: parsedSites rest args.invert := by
        simp [parsedSites, hp, Except.toOption]
      rw [hps] at hord hstk
      obtain ⟨hhead, htail⟩ := List.pairwise_cons.mp hord
      simp only [extractGo, extractRefGo, hp]
      have hfresh : ∀ w' : Windows,
          extractGo genome args rest (cg.find_gene genome args.cutoff) w'
            = extractRefGo genome args rest w' := by
        intro w'
        cases hfg : cg.find_gene genome args.cutoff with
        | none =>
          exact ih none w' htail (fun g hg => Option.noConfusion hg)
        | some g =>
          refine ih (some g) w' htail ?_
          intro g' hg' s hs hig
          cases hg'
          have higcg := find_gene_is_in_gene hinv hfg
          have hchrom : cg.chromosome = s.chromosome := by
            rw [((is_in_gene_iff cg g args.cutoff).mp higcg).1,
              ← ((is_in_gene_iff s g args.cutoff).mp hig).1]
          exact find_gene_mono cg s genome args.cutoff g hinv hfg hig
            (hhead s hs hchrom)
      cases hlast : last with
      | none =>
        have hlg : (match (none : Option Gene) with
            | none => cg.find_gene genome args.cutoff
            | some g => if cg.is_in_gene g args.cutoff = true then some g
                else cg.find_gene genome args.cutoff)
            = cg.find_gene genome args.cutoff := rfl
        rw [hlg]
        cases hfg : cg.find_gene genome args.cutoff with
        | none =>
          dsimp only
          have h1 := hfresh w
          rw [hfg] at h1
          exact h1
        | some g =>
          dsimp only
          have h1 := hfresh (cg.place_in_windows g w args).1
          rw [hfg] at h1
          exact h1
      | some g0 =>
        have hlg : (match some g0 with
            | none => cg.find_gene genome args.cutoff
            | some g => if cg.is_in_gene g args.cutoff = true then some g
                else cg.find_gene genome args.cutoff)
            = if cg.is_in_gene g0 args.cutoff = true then some g0
                else cg.find_gene genome args.cutoff := rfl
        rw [hlg]
        by_cases hin : cg.is_in_gene g0 args.cutoff = true
        · have hfg : cg.find_gene genome args.cutoff = some g0 :=
            hstk g0 hlast cg (List.mem_cons_self _ _) hin
          rw [if_pos hin, hfg]
          dsimp only
          exact ih (some g0) (cg.place_in_windows g0 w args).1 htail
            (fun g' hg' s hs hig =>
              hstk g' (hlast.trans hg') s (List.mem_cons_of_mem _ hs) hig)
        · rw [if_neg hin]
          cases hfg : cg.find_gene genome args.cutoff with
          | none =>
            dsimp only
            have h1 := hfresh w
            rw [hfg] at h1
            exact h1
          | some g =>
            dsimp only
            have h1 := hfresh (cg.place_in_windows g w args).1
            rw [hfg] at h1
            exact h1

/-- Claim C5: on an input file whose parsed methylation records arrive
sorted by ascending position within each chromosome, and a Gene Index
satisfying the sorted/disjoint bucket invariant, `extract_windows` with the
sticky last-gene cache produces exactly the same `Windows` as the reference
pipeline that performs a fresh Gene Index lookup for every parsed site. -/
theorem extract_windows_sticky_eq (lines : List String)
    (genome : List GenesByStrand) (max_gene_length : Int) (args : Args)
    (hinv : GenomeInv genome)
    (hord : (parsedSites (lines.drop 1) args.invert).Pairwise
      (fun a b => a.chromosome = b.chromosome → a.location ≤ b.location)) :
    extract_windows lines genome max_gene_length args
      = extract_windows_ref lines genome max_gene_length args := by
  unfold extract_windows extract_windows_ref
  exact extractGo_eq genome args hinv (lines.drop 1) none
    (Windows.new max_gene_length args) hord (fun g hg => Option.noConfusion hg)

/-- Absolute sizing, window size 10, step 10, cutoff 50. -/
def exArgsC5 : Args := ⟨"", "", 10, 10, "", true, 50, false⟩

/-- Two CG records (locations 5 and 25 on chromosome 1) after a header. -/
def exLinesC5 : List String :=
  ["header", "1\t5\t+\tCG\ta\tb\tc\td\te", "1\t25\t+\tCG\ta\tb\tc\td\te"]

/-- Witness for C5: on the concrete two-gene index and a sorted two-record
file, the sticky pipeline and the fresh-lookup pipeline yield the same
aggregator. -/
theorem extract_windows_sticky_eq_witness :
    extract_windows exLinesC5 exGenome 30 exArgsC5
      = extract_windows_ref exLinesC5 exGenome 30 exArgsC5 :=
  extract_windows_sticky_eq exLinesC5 exGenome 30 exArgsC5 (by decide) (by decide)

end Extractor
